import Mathlib

/-!
Verification development for the PNG-to-base64-JSON conversion utility
(source: src/encode_png_to_base64_json.py).

The script is embedded shallowly:
  - file bytes are lists of naturals (each below 256);
  - the filesystem seen by one run is a tree of named nodes, where the order
    of each child list is the order in which the host filesystem happens to
    enumerate that directory;
  - base64 is modelled by an executable encoder and decoder over byte lists;
  - the Python dict that accumulates the nested result is an association
    list with in-place replacement on key collision, which is exactly the
    insertion-order semantics of dict assignment;
  - Python sorted is a stable sort by the given key; since a stable sort
    w.r.t. a total preorder is extensionally unique, it is embedded as a
    stable insertion sort over the code-point order on strings used by
    Python string comparison;
  - exceptions escaping process_directory or the encoder are Option.none;
  - main is a function from the parsed arguments and the filesystem entry
    found at the input path to a record of what it printed, what it wrote
    and whether it raised.
-/

/-! ### Code-point string order (Python string comparison) -/

/-- Lexicographic comparison of character lists by code point, the order
Python uses to compare strings: equal heads recurse, otherwise the head
code points decide. -/
def strLeB : List Char → List Char → Bool
  | [], _ => true
  | _ :: _, [] => false
  | a :: as, b :: bs => if a = b then strLeB as bs else a.toNat < b.toNat

/-! ### Stable insertion sort (model of Python sorted) -/

/-- Insert an element into a sorted list, placing it before the first
element it is le-below-or-tied-with; this is the stable position. -/
def insertLe {α : Type} (le : α → α → Bool) (a : α) : List α → List α
  | [] => [a]
  | b :: bs => if le a b then a :: b :: bs else b :: insertLe le a bs

/-- Stable insertion sort. Python's sorted is also a stable sort, and a
stable sort w.r.t. a total preorder is extensionally unique, so the two
agree on every input. -/
def insSort {α : Type} (le : α → α → Bool) : List α → List α
  | [] => []
  | a :: as => insertLe le a (insSort le as)

/-! ### Base64 (RFC 4648 standard alphabet, with padding) -/

/-- The 64-character standard base64 alphabet. -/
def b64Alphabet : List Char :=
  "ABCDEFGHIJKLMNOPQRSTUVWXYZabcdefghijklmnopqrstuvwxyz0123456789+/".data

/-- Character for a sextet value. -/
def b64char (n : Nat) : Char := b64Alphabet.getD n 'A'

def b64idxAux : List Char → Char → Nat → Option Nat
  | [], _, _ => none
  | a :: as, c, i => if a = c then some i else b64idxAux as c (i + 1)

/-- Sextet value of an alphabet character, none for a non-alphabet
character (in particular for the padding character). -/
def b64idx (c : Char) : Option Nat := b64idxAux b64Alphabet c 0

/-- Base64-encode a byte list: three bytes become four sextet characters,
a two-byte tail gets one padding character, a one-byte tail gets two.
This is what base64.b64encode produces. -/
def b64encodeList : List Nat → List Char
  | [] => []
  | [a] => [b64char (a / 4), b64char (a % 4 * 16), '=', '=']
  | [a, b] => [b64char (a / 4), b64char (a % 4 * 16 + b / 16), b64char (b % 16 * 4), '=']
  | a :: b :: c :: rest =>
      b64char (a / 4) :: b64char (a % 4 * 16 + b / 16) :: b64char (b % 16 * 4 + c / 64) ::
        b64char (c % 64) :: b64encodeList rest

/-- Base64-decode a character list: four characters at a time, padding
only in the last group. -/
def b64decodeList : List Char → Option (List Nat)
  | [] => some []
  | c1 :: c2 :: c3 :: c4 :: rest =>
      match b64idx c1, b64idx c2 with
      | some a, some b =>
        if c3 = '=' then
          if c4 = '=' ∧ rest = [] then some [a * 4 + b / 16] else none
        else
          match b64idx c3 with
          | some c =>
            if c4 = '=' then
              if rest = [] then some [a * 4 + b / 16, b % 16 * 16 + c / 4] else none
            else
              match b64idx c4, b64decodeList rest with
              | some d, some tail =>
                  some ((a * 4 + b / 16) :: (b % 16 * 16 + c / 4) :: (c % 4 * 64 + d) :: tail)
              | _, _ => none
          | none => none
      | _, _ => none
  | _ => none

/-- String-level base64 encoding. -/
def b64encode (bs : List Nat) : String := String.mk (b64encodeList bs)

/-- String-level base64 decoding. -/
def b64decode (s : String) : Option (List Nat) := b64decodeList s.data

/-! ### Filesystem model -/

/-- A filesystem node as one run of the script observes it: a regular file
with its readable bytes (none when opening or reading it raises OSError),
or a directory with its children in the enumeration order the filesystem
reports. -/
inductive FSNode where
  | file : String → Option (List Nat) → FSNode
  | dir : String → List FSNode → FSNode

/-- Base name of a node (Path.name of a direct child). -/
def nodeName : FSNode → String
  | .file n _ => n
  | .dir n _ => n

/-- Path.is_dir for a direct child. -/
def isDir : FSNode → Bool
  | .file _ _ => false
  | .dir _ _ => true

/-- Whether a base name matches the glob pattern *.png. pathlib's glob
uses fnmatch semantics, so any entry whose name ends in .png matches,
including directories and names beginning with a dot. -/
def pngName (s : String) : Bool := List.isSuffixOf ".png".data s.data

/-- dir_path.glob of *.png over one directory listing: the children whose
names match, in enumeration order, whether files or directories. -/
def globPng (cs : List FSNode) : List FSNode := cs.filter (fun t => pngName (nodeName t))

mutual
/-- d.rglob of *.png: matches among the children of d, then the matches
beneath each child directory, depth first in enumeration order. -/
def rglobPng : FSNode → List FSNode
  | .file _ _ => []
  | .dir _ cs => globPng cs ++ rglobAux cs

def rglobAux : List FSNode → List FSNode
  | [] => []
  | t :: ts => (if isDir t then rglobPng t else []) ++ rglobAux ts
end

/-- open(path, rb).read(): the bytes of a readable regular file; none for
an unreadable file, and none for a directory (IsADirectoryError). -/
def readFile : FSNode → Option (List Nat)
  | .file _ c => c
  | .dir _ _ => none

/-- encode_png_to_data_uri: read the whole file and put the base64 payload
after the fixed MIME head; none when the read raises. -/
def encodePngToDataUri (t : FSNode) : Option String :=
  (readFile t).map (fun bs => "data:image/png;base64," ++ b64encode bs)

/-- One element of the output: a base name together with its data URI. -/
structure Entry where
  name : String
  data : String
deriving DecidableEq

/-- The dict built for one discovered PNG path inside process_directory. -/
def entryOf (t : FSNode) : Option Entry :=
  (encodePngToDataUri t).map (fun d => { name := nodeName t, data := d })

/-- The list comprehension building entries for a list of discovered PNG
paths: the first read that raises aborts the whole comprehension. -/
def mkEntries : List FSNode → Option (List Entry)
  | [] => some []
  | t :: ts =>
      match entryOf t, mkEntries ts with
      | some e, some es => some (e :: es)
      | _, _ => none

/-- Comparison of entries by the name key, as the sorted key does. -/
def entryLeB (x y : Entry) : Bool := strLeB x.name.data y.name.data

/-- Comparison of sibling paths; for children of one directory, comparing
full paths is comparing base names. -/
def nodeLeB (x y : FSNode) : Bool := strLeB (nodeName x).data (nodeName y).data

/-- sorted of an entry list with key name. -/
def sortEntries : List Entry → List Entry := insSort entryLeB

/-- sorted of the subdirectory list. -/
def sortSubdirs : List FSNode → List FSNode := insSort nodeLeB

/-- The nested result intermediate: the Python dict as an association list
in insertion order. -/
abbrev Bucketing := List (String × List Entry)

/-- dict assignment result[k] = v: replace in place when the key exists
(keeping its position), append otherwise. -/
def dictInsert (k : String) (v : List Entry) : Bucketing → Bucketing
  | [] => [(k, v)]
  | (k', v') :: rest => if k' = k then (k, v) :: rest else (k', v') :: dictInsert k v rest

/-- The nested-case loop body over the sorted subdirectories: skip a
subdirectory with no PNG beneath it, otherwise encode and sort its
entries and assign them under its name. -/
def buildBuckets : Bucketing → List FSNode → Option Bucketing
  | acc, [] => some acc
  | acc, d :: ds =>
      if (rglobPng d).isEmpty then buildBuckets acc ds
      else
        match mkEntries (rglobPng d) with
        | none => none
        | some es => buildBuckets (dictInsert (nodeName d) (sortEntries es) acc) ds

/-- A directory result: the flat sorted entry sequence, or the nested
mapping. -/
abbrev DirResult := List Entry ⊕ Bucketing

/-- The flat-case test of process_directory: PNG names directly in the
root, and no subdirectory with any PNG anywhere beneath it. -/
def flatCase (children : List FSNode) : Bool :=
  !(globPng children).isEmpty && (children.filter isDir).all (fun d => (rglobPng d).isEmpty)

/-- process_directory on the children of the input directory: the flat
branch returns the sorted root entries; the nested branch fills buckets
over the sorted subdirectories, then assigns the root entries under
_root when root matches exist, and degrades an empty dict to the empty
list. A failed read makes the whole call raise, modelled as none. -/
def processDirectory (children : List FSNode) : Option DirResult :=
  if flatCase children then
    match mkEntries (globPng children) with
    | none => none
    | some es => some (Sum.inl (sortEntries es))
  else
    match buildBuckets [] (sortSubdirs (children.filter isDir)) with
    | none => none
    | some base =>
      if (globPng children).isEmpty then
        some (if base.isEmpty then Sum.inl [] else Sum.inr base)
      else
        match mkEntries (globPng children) with
        | none => none
        | some es =>
            let res := dictInsert "_root" (sortEntries es) base
            some (if res.isEmpty then Sum.inl [] else Sum.inr res)

/-! ### The driver -/

def splitSlashAux (cur : List Char) : List Char → List (List Char)
  | [] => [cur.reverse]
  | c :: cs => if c = '/' then cur.reverse :: splitSlashAux [] cs else splitSlashAux (c :: cur) cs

/-- Path(s).name: the final path component, where empty components and
single-dot components do not count; the empty string when nothing
remains, as for the inputs . and /. -/
def pathName (s : String) : String :=
  String.mk (((splitSlashAux [] s.data).filter
    (fun c => !(c.isEmpty || c == ['.']))).getLastD [])

/-- The count printed in the summary line: length of the flat sequence,
or the sum of the bucket lengths. -/
def resCount : DirResult → Nat
  | Sum.inl es => es.length
  | Sum.inr m => (m.map (fun p => p.2.length)).foldr (· + ·) 0

/-- What one invocation of main does: the lines it prints, the output
document it writes (the single top-level key with its directory result),
and whether an exception escaped. The second argument is the filesystem
entry found at the input path: none when the path does not exist, a file
node when it exists but is not a directory. -/
structure MainResult where
  printed : List String
  written : Option (String × DirResult)
  raised : Bool
deriving DecidableEq

/-- main with parsed arguments directory and output, run against the
filesystem entry at the input path. -/
def mainModel (directory output : String) (target : Option FSNode) : MainResult :=
  match target with
  | none =>
      { printed := ["Error: Directory " ++ directory ++ " does not exist"]
        written := none, raised := false }
  | some (.file _ _) =>
      { printed := ["Error: " ++ directory ++ " is not a directory"]
        written := none, raised := false }
  | some (.dir _ children) =>
      match processDirectory children with
      | none => { printed := [], written := none, raised := true }
      | some res =>
          { printed := ["Processed " ++ toString (resCount res) ++ " PNG files to " ++ output]
            written := some (pathName directory, res)
            raised := false }

/-! ### The nested case as the specification words it

Modelled from the spec: for each subdirectory, iterated in sorted order
by name, recursively collect every PNG file anywhere beneath it; if that
set is non-empty, add a mapping entry from the subdirectory name to the
sorted entry sequence; after all subdirectories, if root-level PNG files
exist, add them under the reserved key _root; if nothing was added, the
result is the empty sequence. -/

def specBuckets : List FSNode → Option Bucketing
  | [] => some []
  | d :: ds =>
      if (rglobPng d).isEmpty then specBuckets ds
      else
        match mkEntries (rglobPng d) with
        | none => none
        | some es => (specBuckets ds).map (fun rest => (nodeName d, sortEntries es) :: rest)

/-- Modelled from the spec: the nested-case directory result, written as
the spec describes it (pure appending of mapping entries in order, with
_root last). -/
def specNested (children : List FSNode) : Option DirResult :=
  match specBuckets (sortSubdirs (children.filter isDir)) with
  | none => none
  | some bs =>
      if (globPng children).isEmpty then
        some (if bs.isEmpty then Sum.inl [] else Sum.inr bs)
      else
        (mkEntries (globPng children)).map
          (fun es => Sum.inr (bs ++ [("_root", sortEntries es)]))

/-! ### Same snapshot up to enumeration order -/

mutual
/-- Two nodes show the same filesystem snapshot, possibly enumerated in a
different order: files are identical, directories have the same name and
children lists that match pairwise after a permutation. -/
def SameSnapshot : FSNode → FSNode → Prop
  | .file n c, .file n' c' => n = n' ∧ c = c'
  | .dir n cs, .dir n' cs' => n = n' ∧ ∃ l, SSList cs l ∧ l.Perm cs'
  | _, _ => False

def SSList : List FSNode → List FSNode → Prop
  | [], [] => True
  | a :: as, b :: bs => SameSnapshot a b ∧ SSList as bs
  | _, _ => False
end

/-- Child lists showing the same snapshot up to enumeration order at
every level. -/
def RelL (l₁ l₂ : List FSNode) : Prop := ∃ l, SSList l₁ l ∧ l.Perm l₂

/-- Sibling base names are pairwise distinct, as a real filesystem
guarantees inside one directory. -/
def namesDistinct : List String → Bool
  | [] => true
  | s :: ss => !(ss.contains s) && namesDistinct ss

mutual
/-- Every directory of the tree has pairwise distinct child names. -/
def dupFreeTree : FSNode → Bool
  | .file _ _ => true
  | .dir _ cs => namesDistinct (cs.map nodeName) && dupFreeList cs

def dupFreeList : List FSNode → Bool
  | [] => true
  | t :: ts => dupFreeTree t && dupFreeList ts
end

/-- Whether a directory result is the nested mapping form. -/
def isMapping : Option DirResult → Bool
  | some (Sum.inr _) => true
  | _ => false

/-- The key list of a nested result, empty for the other forms. -/
def resultKeys : Option DirResult → List String
  | some (Sum.inr m) => m.map Prod.fst
  | _ => []

/-! ### Concrete inputs used by witnesses and counterexamples -/

/-- Root with two readable PNG files and one PNG-free subdirectory. -/
def exFlat : List FSNode :=
  [FSNode.file "b.png" (some [1, 2]), FSNode.file "a.png" (some [255]),
   FSNode.dir "docs" [FSNode.file "readme.txt" (some [3])]]

/-- One subdirectory with a PNG beneath it plus a root PNG. -/
def exNested : List FSNode :=
  [FSNode.dir "sub" [FSNode.file "a.png" (some [])], FSNode.file "r.png" (some [])]

/-- A directory with subdirectories but no PNG anywhere. -/
def exEmpty : List FSNode :=
  [FSNode.dir "sub" [FSNode.file "notes.txt" (some [7])]]

/-- A single PNG-named file whose read raises. -/
def exBadRead : List FSNode := [FSNode.file "bad.png" none]

/-- A directory whose name matches *.png. -/
def exPngDir : List FSNode := [FSNode.dir "evil.png" []]

/-- Only a PNG-free subdirectory: the nested branch runs and finds
nothing. -/
def exNotFlat : List FSNode := [FSNode.dir "sub" []]

/-- Two files of the same base name under different subdirectories of
sub, first enumeration order. -/
def exDupA : List FSNode :=
  [FSNode.dir "sub"
    [FSNode.dir "a" [FSNode.file "x.png" (some [0])],
     FSNode.dir "b" [FSNode.file "x.png" (some [1])]]]

/-- The same snapshot as exDupA with the two inner directories enumerated
in the other order. -/
def exDupB : List FSNode :=
  [FSNode.dir "sub"
    [FSNode.dir "b" [FSNode.file "x.png" (some [1])],
     FSNode.dir "a" [FSNode.file "x.png" (some [0])]]]

/-- A snapshot with distinct names inside every bucket, first enumeration
order. -/
def exPermA : List FSNode :=
  [FSNode.dir "sub" [FSNode.file "b.png" (some [1]), FSNode.file "a.png" (some [2])]]

/-- The same snapshot as exPermA, other enumeration order. -/
def exPermB : List FSNode :=
  [FSNode.dir "sub" [FSNode.file "a.png" (some [2]), FSNode.file "b.png" (some [1])]]

/-! ### Helper predicates in executable form -/

/-- Whether the filesystem entry at the input path is a directory. -/
def isDirEntry : Option FSNode → Bool
  | some (.dir _ _) => true
  | _ => false

/-- Whether some discovered PNG path (a root glob match, or an rglob match
beneath some immediate subdirectory) cannot be read. -/
def anyBadRead (children : List FSNode) : Bool :=
  (globPng children).any (fun f => (readFile f).isNone) ||
    (children.filter isDir).any (fun d => (rglobPng d).any (fun f => (readFile f).isNone))

/-- No immediate subdirectory uses the reserved name _root. -/
def noRootSub (children : List FSNode) : Bool :=
  (children.filter isDir).all (fun d => !(nodeName d == "_root"))

/-- Inside each immediate subdirectory, the PNG paths collected by rglob
have pairwise distinct base names. -/
def bucketsDistinct (children : List FSNode) : Bool :=
  (children.filter isDir).all (fun d => namesDistinct ((rglobPng d).map nodeName))

/-- Some PNG match exists: at the root, or anywhere beneath some
immediate subdirectory. -/
def anyPng (children : List FSNode) : Bool :=
  !(globPng children).isEmpty ||
    (children.filter isDir).any (fun d => !(rglobPng d).isEmpty)

/-! ### Theorems: base64 -/

/-- Looking up the character of a sextet value recovers the value. -/
theorem b64idx_b64char : ∀ n, n < 64 → b64idx (b64char n) = some n := by decide

/-- No alphabet character is the padding character. -/
theorem b64char_ne_pad : ∀ n, n < 64 → b64char n ≠ '=' := by decide

/-- Decoding inverts encoding on byte lists. -/
theorem b64decode_encode (bs : List Nat) (h : ∀ x ∈ bs, x < 256) :
    b64decodeList (b64encodeList bs) = some bs := by
  induction bs using b64encodeList.induct with
  | case1 => rfl
  | case2 a =>
    have ha : a < 256 := h a (by simp)
    have e1 := b64idx_b64char (a / 4) (by omega)
    have e2 := b64idx_b64char (a % 4 * 16) (by omega)
    simp [b64encodeList, b64decodeList, e1, e2]
    omega
  | case3 a b =>
    have ha : a < 256 := h a (by simp)
    have hb : b < 256 := h b (by simp)
    have e1 := b64idx_b64char (a / 4) (by omega)
    have e2 := b64idx_b64char (a % 4 * 16 + b / 16) (by omega)
    have e3 := b64idx_b64char (b % 16 * 4) (by omega)
    have n3 := b64char_ne_pad (b % 16 * 4) (by omega)
    simp [b64encodeList, b64decodeList, e1, e2, e3, n3]
    omega
  | case4 a b c rest ih =>
    have ha : a < 256 := h a (by simp)
    have hb : b < 256 := h b (by simp)
    have hc : c < 256 := h c (by simp)
    have e1 := b64idx_b64char (a / 4) (by omega)
    have e2 := b64idx_b64char (a % 4 * 16 + b / 16) (by omega)
    have e3 := b64idx_b64char (b % 16 * 4 + c / 64) (by omega)
    have e4 := b64idx_b64char (c % 64) (by omega)
    have n3 := b64char_ne_pad (b % 16 * 4 + c / 64) (by omega)
    have n4 := b64char_ne_pad (c % 64) (by omega)
    have ih' := ih (fun x hx => h x (by simp [hx]))
    simp [b64encodeList, b64decodeList, e1, e2, e3, e4, n3, n4, ih']
    omega

/-! ### Theorems: the code-point order and the stable sort -/

/-- Characters with equal code points are equal. -/
theorem charToNat_inj {a b : Char} (h : a.toNat = b.toNat) : a = b :=
  Char.eq_of_val_eq (UInt32.eq_of_val_eq (Fin.ext h))

theorem strLeB_total (as : List Char) : ∀ bs, strLeB as bs = true ∨ strLeB bs as = true := by
  induction as with
  | nil => intro bs; left; rfl
  | cons a as ih =>
    intro bs
    cases bs with
    | nil => right; rfl
    | cons b bs =>
      by_cases hab : a = b
      · subst hab
        simp only [strLeB, if_pos rfl]
        exact ih bs
      · have hba : ¬ b = a := fun hh => hab hh.symm
        have hne : a.toNat ≠ b.toNat := fun hh => hab (charToNat_inj hh)
        simp only [strLeB, if_neg hab, if_neg hba, decide_eq_true_eq]
        omega

theorem strLeB_trans (as : List Char) :
    ∀ bs cs, strLeB as bs = true → strLeB bs cs = true → strLeB as cs = true := by
  induction as with
  | nil => intro bs cs _ _; rfl
  | cons a as ih =>
    intro bs cs h1 h2
    cases bs with
    | nil => simp [strLeB] at h1
    | cons b bs =>
      cases cs with
      | nil => simp [strLeB] at h2
      | cons c cs =>
        by_cases hab : a = b <;> by_cases hbc : b = c
        · subst hab; subst hbc
          simp only [strLeB, if_pos rfl] at h1 h2 ⊢
          exact ih bs cs h1 h2
        · subst hab
          simp only [strLeB, if_pos rfl] at h1
          simpa only [strLeB, if_neg hbc] using h2
        · subst hbc
          simpa only [strLeB, if_neg hab] using h1
        · simp only [strLeB, if_neg hab, decide_eq_true_eq] at h1
          simp only [strLeB, if_neg hbc, decide_eq_true_eq] at h2
          by_cases hac : a = c
          · exfalso
            subst hac
            omega
          · simp only [strLeB, if_neg hac, decide_eq_true_eq]
            omega

theorem strLeB_antisymm (as : List Char) :
    ∀ bs, strLeB as bs = true → strLeB bs as = true → as = bs := by
  induction as with
  | nil =>
    intro bs _ h2
    cases bs with
    | nil => rfl
    | cons b bs => simp [strLeB] at h2
  | cons a as ih =>
    intro bs h1 h2
    cases bs with
    | nil => simp [strLeB] at h1
    | cons b bs =>
      by_cases hab : a = b
      · subst hab
        simp only [strLeB, if_pos rfl] at h1 h2
        rw [ih bs h1 h2]
      · have hba : ¬ b = a := fun hh => hab hh.symm
        simp only [strLeB, if_neg hab, decide_eq_true_eq] at h1
        simp only [strLeB, if_neg hba, decide_eq_true_eq] at h2
        omega

/-- Equal character data means equal strings. -/
theorem stringDataInj {s t : String} (h : s.data = t.data) : s = t := by
  cases s
  cases t
  exact congrArg String.mk (by simpa using h)

theorem insertLe_perm {α : Type} (le : α → α → Bool) (a : α) (l : List α) :
    (insertLe le a l).Perm (a :: l) := by
  induction l with
  | nil => exact List.Perm.refl _
  | cons b bs ih =>
    simp only [insertLe]
    by_cases h : le a b = true
    · rw [if_pos h]
    · rw [if_neg h]
      exact (ih.cons b).trans (List.Perm.swap a b bs)

theorem insSort_perm {α : Type} (le : α → α → Bool) (l : List α) :
    (insSort le l).Perm l := by
  induction l with
  | nil => exact List.Perm.refl _
  | cons a as ih => exact (insertLe_perm le a (insSort le as)).trans (ih.cons a)

theorem insertLe_pairwise {α : Type} {le : α → α → Bool}
    (htrans : ∀ x y z, le x y = true → le y z = true → le x z = true)
    (htot : ∀ x y, le x y = true ∨ le y x = true)
    (a : α) {l : List α} (hl : l.Pairwise (fun x y => le x y = true)) :
    (insertLe le a l).Pairwise (fun x y => le x y = true) := by
  induction l with
  | nil => simp [insertLe]
  | cons b bs ih =>
    rcases List.pairwise_cons.mp hl with ⟨hb, hbs⟩
    simp only [insertLe]
    by_cases h : le a b = true
    · rw [if_pos h]
      refine List.pairwise_cons.mpr ⟨?_, hl⟩
      intro x hx
      rcases List.mem_cons.mp hx with hx | hx
      · exact hx ▸ h
      · exact htrans a b x h (hb x hx)
    · rw [if_neg h]
      have hba : le b a = true := (htot a b).resolve_left h
      refine List.pairwise_cons.mpr ⟨?_, ih hbs⟩
      intro x hx
      rcases List.mem_cons.mp ((insertLe_perm le a bs).mem_iff.mp hx) with hx | hx
      · exact hx ▸ hba
      · exact hb x hx

theorem insSort_pairwise {α : Type} {le : α → α → Bool}
    (htrans : ∀ x y z, le x y = true → le y z = true → le x z = true)
    (htot : ∀ x y, le x y = true ∨ le y x = true) (l : List α) :
    (insSort le l).Pairwise (fun x y => le x y = true) := by
  induction l with
  | nil => simp [insSort]
  | cons a as ih => exact insertLe_pairwise htrans htot a ih

theorem entryLeB_trans (x y z : Entry) :
    entryLeB x y = true → entryLeB y z = true → entryLeB x z = true :=
  strLeB_trans x.name.data y.name.data z.name.data

theorem entryLeB_total (x y : Entry) : entryLeB x y = true ∨ entryLeB y x = true :=
  strLeB_total x.name.data y.name.data

theorem nodeLeB_trans (x y z : FSNode) :
    nodeLeB x y = true → nodeLeB y z = true → nodeLeB x z = true :=
  strLeB_trans (nodeName x).data (nodeName y).data (nodeName z).data

theorem nodeLeB_total (x y : FSNode) : nodeLeB x y = true ∨ nodeLeB y x = true :=
  strLeB_total (nodeName x).data (nodeName y).data

theorem sortEntries_perm (es : List Entry) : (sortEntries es).Perm es :=
  insSort_perm entryLeB es

theorem sortEntries_pairwise (es : List Entry) :
    (sortEntries es).Pairwise (fun x y => entryLeB x y = true) :=
  insSort_pairwise entryLeB_trans entryLeB_total es

theorem sortSubdirs_perm (ds : List FSNode) : (sortSubdirs ds).Perm ds :=
  insSort_perm nodeLeB ds

theorem sortSubdirs_pairwise (ds : List FSNode) :
    (sortSubdirs ds).Pairwise (fun x y => nodeLeB x y = true) :=
  insSort_pairwise nodeLeB_trans nodeLeB_total ds

/-- Two permuted entry lists with pairwise distinct names have the same
sorted form: the sort order pins every entry to a unique position. -/
theorem sortEntries_eq_of_perm {es₁ es₂ : List Entry} (hp : es₁.Perm es₂)
    (hnd : (es₁.map Entry.name).Nodup) : sortEntries es₁ = sortEntries es₂ := by
  have hperm : (sortEntries es₁).Perm (sortEntries es₂) :=
    (sortEntries_perm es₁).trans (hp.trans (sortEntries_perm es₂).symm)
  have hr : ∀ {es : List Entry}, (es.map Entry.name).Nodup →
      List.Sorted (fun a b : Entry => entryLeB a b = true ∧ a.name ≠ b.name) (sortEntries es) := by
    intro es hes
    have h1 := sortEntries_pairwise es
    have h2 : ((sortEntries es).map Entry.name).Nodup :=
      (List.Perm.map Entry.name (sortEntries_perm es)).symm.nodup hes
    have h3 : (sortEntries es).Pairwise (fun a b => a.name ≠ b.name) :=
      List.pairwise_map.mp h2
    exact h1.and h3
  have hnd₂ : (es₂.map Entry.name).Nodup := (List.Perm.map Entry.name hp).nodup hnd
  haveI : IsAntisymm Entry (fun a b : Entry => entryLeB a b = true ∧ a.name ≠ b.name) := by
    constructor
    intro a b hab hba
    exact absurd (stringDataInj (strLeB_antisymm _ _ hab.1 hba.1)) hab.2
  exact List.eq_of_perm_of_sorted hperm (hr hnd) (hr hnd₂)

/-- Claim C4: encode_png_to_data_uri on a readable file is the fixed
prefix followed by the padded standard base64 encoding of the file bytes,
and decoding that payload gives back the bytes. -/
theorem c4_data_uri_roundtrip (nm : String) (bs : List Nat)
    (h : bs.all (fun x => x < 256) = true) :
    encodePngToDataUri (FSNode.file nm (some bs)) =
      some ("data:image/png;base64," ++ b64encode bs) ∧
    b64decode (b64encode bs) = some bs := by
  refine ⟨rfl, ?_⟩
  show b64decodeList (String.mk (b64encodeList bs)).data = some bs
  exact b64decode_encode bs (by simpa [List.all_eq_true] using h)

/-- Witness for C4 at the four-byte PNG signature head. -/
theorem c4_witness :
    [137, 80, 78, 71].all (fun x => x < 256) = true ∧
    (encodePngToDataUri (FSNode.file "img.png" (some [137, 80, 78, 71])) =
       some ("data:image/png;base64," ++ b64encode [137, 80, 78, 71]) ∧
     b64decode (b64encode [137, 80, 78, 71]) = some [137, 80, 78, 71]) :=
  ⟨by decide, c4_data_uri_roundtrip "img.png" [137, 80, 78, 71] (by decide)⟩

/-! ### Theorems: discovery and entry construction -/

theorem entryOf_name {t : FSNode} {e : Entry} (h : entryOf t = some e) : e.name = nodeName t := by
  cases t with
  | file n c =>
    cases c with
    | none => simp [entryOf, encodePngToDataUri, readFile] at h
    | some bs =>
      rw [← Option.some.inj h]
  | dir n cs => simp [entryOf, encodePngToDataUri, readFile] at h

theorem entryOf_none_iff (t : FSNode) : entryOf t = none ↔ readFile t = none := by
  cases t with
  | file n c => cases c <;> simp [entryOf, encodePngToDataUri, readFile]
  | dir n cs => simp [entryOf, encodePngToDataUri, readFile]

theorem mkEntries_names {l : List FSNode} {es : List Entry} (h : mkEntries l = some es) :
    es.map Entry.name = l.map nodeName := by
  induction l generalizing es with
  | nil =>
    simp only [mkEntries, Option.some_inj] at h
    simp [← h]
  | cons t ts ih =>
    simp only [mkEntries] at h
    cases he : entryOf t with
    | none => rw [he] at h; exact absurd h (by simp)
    | some e =>
      rw [he] at h
      cases hm : mkEntries ts with
      | none => rw [hm] at h; exact absurd h (by simp)
      | some es' =>
        rw [hm] at h
        simp only [Option.some_inj] at h
        subst h
        simp [entryOf_name he, ih hm]

theorem mkEntries_none_of_mem {l : List FSNode} {t : FSNode} (ht : t ∈ l)
    (hbad : entryOf t = none) : mkEntries l = none := by
  induction l with
  | nil => cases ht
  | cons x xs ih =>
    rcases List.mem_cons.mp ht with rfl | ht
    · simp [mkEntries, hbad]
    · simp [mkEntries, ih ht]

theorem mkEntries_nil : mkEntries [] = some [] := rfl

/-! ### Theorems: claims C1, C5, C6, C7, C9, C10 -/

/-- Claim C1: when the root directly contains at least one PNG match and
no immediate subdirectory has any PNG anywhere beneath it, and all reads
succeed, process_directory returns the single flat list built from
exactly the root matches, stably sorted ascending by name. -/
theorem c1_flat_structure (children : List FSNode) (es : List Entry)
    (hroot : (globPng children).isEmpty = false)
    (hsub : (children.filter isDir).all (fun d => (rglobPng d).isEmpty) = true)
    (henc : mkEntries (globPng children) = some es) :
    processDirectory children = some (Sum.inl (sortEntries es)) ∧
    (sortEntries es).Perm es ∧
    es.map Entry.name = (globPng children).map nodeName ∧
    (sortEntries es).Pairwise (fun a b => entryLeB a b = true) := by
  have hf : flatCase children = true := by
    simp [flatCase, hroot, hsub]
  refine ⟨?_, sortEntries_perm es, mkEntries_names henc, sortEntries_pairwise es⟩
  simp [processDirectory, hf, henc]

/-- Witness for C1: a root with two PNG files and a PNG-free
subdirectory. -/
theorem c1_witness :
    (globPng exFlat).isEmpty = false ∧
    (exFlat.filter isDir).all (fun d => (rglobPng d).isEmpty) = true ∧
    mkEntries (globPng exFlat) =
      some [{name := "b.png", data := "data:image/png;base64,AQI="},
            {name := "a.png", data := "data:image/png;base64,/w=="}] ∧
    (processDirectory exFlat =
        some (Sum.inl (sortEntries
          [{name := "b.png", data := "data:image/png;base64,AQI="},
           {name := "a.png", data := "data:image/png;base64,/w=="}])) ∧
      (sortEntries
          [{name := "b.png", data := "data:image/png;base64,AQI="},
           {name := "a.png", data := "data:image/png;base64,/w=="}]).Perm
          [{name := "b.png", data := "data:image/png;base64,AQI="},
           {name := "a.png", data := "data:image/png;base64,/w=="}] ∧
      [{name := "b.png", data := "data:image/png;base64,AQI="},
       {name := "a.png", data := "data:image/png;base64,/w=="}].map Entry.name =
        (globPng exFlat).map nodeName ∧
      (sortEntries
          [{name := "b.png", data := "data:image/png;base64,AQI="},
           {name := "a.png", data := "data:image/png;base64,/w=="}]).Pairwise
        (fun a b => entryLeB a b = true)) :=
  ⟨by decide, by decide, by decide,
    c1_flat_structure exFlat
      [{name := "b.png", data := "data:image/png;base64,AQI="},
       {name := "a.png", data := "data:image/png;base64,/w=="}]
      (by decide) (by decide) (by decide)⟩

theorem buildBuckets_all_empty {ds : List FSNode} (acc : Bucketing)
    (h : ∀ d ∈ ds, (rglobPng d).isEmpty = true) : buildBuckets acc ds = some acc := by
  induction ds with
  | nil => rfl
  | cons d ds ih =>
    simp only [buildBuckets, h d (List.mem_cons_self d ds), if_pos rfl]
    exact ih (fun x hx => h x (List.mem_cons_of_mem d hx))

/-- Claim C7: a directory with no PNG match anywhere gives the empty
list, not an empty mapping. -/
theorem c7_no_png_anywhere (children : List FSNode)
    (hroot : (globPng children).isEmpty = true)
    (hsub : (children.filter isDir).all (fun d => (rglobPng d).isEmpty) = true) :
    processDirectory children = some (Sum.inl []) := by
  have hf : flatCase children = false := by
    simp [flatCase, hroot]
  have hb : buildBuckets [] (sortSubdirs (children.filter isDir)) = some [] := by
    apply buildBuckets_all_empty
    intro d hd
    exact (List.all_eq_true.mp hsub) d ((sortSubdirs_perm _).mem_iff.mp hd)
  simp [processDirectory, hf, hb, hroot]

/-- Witness for C7: one subdirectory holding only a text file. -/
theorem c7_witness :
    (globPng exEmpty).isEmpty = true ∧
    (exEmpty.filter isDir).all (fun d => (rglobPng d).isEmpty) = true ∧
    processDirectory exEmpty = some (Sum.inl []) :=
  ⟨by decide, by decide, c7_no_png_anywhere exEmpty (by decide) (by decide)⟩

/-- Claim C5: when the input path does not exist or is not a directory,
main prints a diagnostic, writes nothing, scans nothing and returns
without raising. -/
theorem c5_precondition (d o : String) (t : Option FSNode) (h : isDirEntry t = false) :
    (mainModel d o t).printed ≠ [] ∧ (mainModel d o t).written = none ∧
      (mainModel d o t).raised = false := by
  match t with
  | none => exact ⟨by simp [mainModel], rfl, rfl⟩
  | some (.file nm c) => exact ⟨by simp [mainModel], rfl, rfl⟩
  | some (.dir nm cs) => simp [isDirEntry] at h

/-- Witness for C5 at a missing path. -/
theorem c5_witness :
    isDirEntry none = false ∧
    ((mainModel "missing" "out.json" none).printed ≠ [] ∧
      (mainModel "missing" "out.json" none).written = none ∧
      (mainModel "missing" "out.json" none).raised = false) :=
  ⟨rfl, c5_precondition "missing" "out.json" none rfl⟩

theorem processDirectory_none_of_bad_root {children : List FSNode} {f : FSNode}
    (hf : f ∈ globPng children) (hbad : entryOf f = none) :
    processDirectory children = none := by
  have hmk : mkEntries (globPng children) = none := mkEntries_none_of_mem hf hbad
  have hne : (globPng children).isEmpty = false := by
    cases hg : globPng children with
    | nil => rw [hg] at hf; cases hf
    | cons x xs => rfl
  by_cases hfc : flatCase children = true
  · simp [processDirectory, hfc, hmk]
  · rw [processDirectory, if_neg hfc]
    cases hb : buildBuckets [] (sortSubdirs (children.filter isDir)) with
    | none => rfl
    | some base => simp [hne, hmk]

theorem buildBuckets_none_of_bad {ds : List FSNode} {x : FSNode} (hx : x ∈ ds)
    (hbad : mkEntries (rglobPng x) = none) :
    ∀ acc, buildBuckets acc ds = none := by
  induction ds with
  | nil => cases hx
  | cons d ds ih =>
    intro acc
    rcases List.mem_cons.mp hx with rfl | hx
    · have hne : (rglobPng x).isEmpty = false := by
        cases hg : rglobPng x with
        | nil => rw [hg] at hbad; exact absurd hbad (by simp [mkEntries])
        | cons y ys => rfl
      simp [buildBuckets, hne, hbad]
    · by_cases he : (rglobPng d).isEmpty = true
      · simp only [buildBuckets, he, if_pos rfl]
        exact ih hx acc
      · simp only [buildBuckets, if_neg he]
        cases hmk : mkEntries (rglobPng d) with
        | none => rfl
        | some es => exact ih hx _

theorem processDirectory_none_of_bad_sub {children : List FSNode} {x f : FSNode}
    (hx : x ∈ children.filter isDir) (hf : f ∈ rglobPng x) (hbad : entryOf f = none) :
    processDirectory children = none := by
  have hne : (rglobPng x).isEmpty = false := by
    cases hg : rglobPng x with
    | nil => rw [hg] at hf; cases hf
    | cons y ys => rfl
  have hall : (children.filter isDir).all (fun d => (rglobPng d).isEmpty) = false := by
    cases hv : (children.filter isDir).all (fun d => (rglobPng d).isEmpty) with
    | false => rfl
    | true => exact absurd (List.all_eq_true.mp hv x hx) (by simp [hne])
  have hflat : flatCase children = false := by
    simp [flatCase, hall]
  have hmk : mkEntries (rglobPng x) = none := mkEntries_none_of_mem hf hbad
  have hbb := buildBuckets_none_of_bad ((sortSubdirs_perm _).mem_iff.mpr hx) hmk []
  simp [processDirectory, hflat, hbb]

theorem mainModel_raised {d o n : String} {children : List FSNode}
    (h : processDirectory children = none) :
    mainModel d o (some (.dir n children)) = ⟨[], none, true⟩ := by
  simp [mainModel, h]

/-- Claim C6: a failing read of any discovered PNG path aborts the run
before the output file is opened; nothing is written and nothing is
skipped. -/
theorem c6_read_error_aborts (d o n : String) (children : List FSNode)
    (h : anyBadRead children = true) :
    processDirectory children = none ∧
    mainModel d o (some (.dir n children)) = ⟨[], none, true⟩ := by
  have hnone : processDirectory children = none := by
    cases hroot : (globPng children).any (fun f => (readFile f).isNone) with
    | true =>
      rcases List.any_eq_true.mp hroot with ⟨f, hf, hbad⟩
      exact processDirectory_none_of_bad_root hf
        ((entryOf_none_iff f).mpr (Option.isNone_iff_eq_none.mp hbad))
    | false =>
      have hsub : (children.filter isDir).any
          (fun d => (rglobPng d).any (fun f => (readFile f).isNone)) = true := by
        simpa [anyBadRead, hroot] using h
      rcases List.any_eq_true.mp hsub with ⟨x, hx, hin⟩
      rcases List.any_eq_true.mp hin with ⟨f, hf, hbad⟩
      exact processDirectory_none_of_bad_sub hx hf
        ((entryOf_none_iff f).mpr (Option.isNone_iff_eq_none.mp hbad))
  exact ⟨hnone, mainModel_raised hnone⟩

/-- Witness for C6: one root PNG whose read raises. -/
theorem c6_witness :
    anyBadRead exBadRead = true ∧
    (processDirectory exBadRead = none ∧
      mainModel "pics" "out.json" (some (.dir "pics" exBadRead)) = ⟨[], none, true⟩) :=
  ⟨by decide, c6_read_error_aborts "pics" "out.json" "pics" exBadRead (by decide)⟩

/-- Claim C9: a directory whose own name matches *.png is collected by
the glob patterns like a file; opening it then fails, so the run aborts
with nothing written. -/
theorem c9_png_named_dir (d o rn nm : String) (cs children : List FSNode)
    (hmem : FSNode.dir nm cs ∈ children) (hpng : pngName nm = true) :
    FSNode.dir nm cs ∈ globPng children ∧
    processDirectory children = none ∧
    (mainModel d o (some (.dir rn children))).written = none ∧
    (mainModel d o (some (.dir rn children))).raised = true := by
  have hg : FSNode.dir nm cs ∈ globPng children :=
    List.mem_filter.mpr ⟨hmem, by simpa [nodeName] using hpng⟩
  have hnone := processDirectory_none_of_bad_root hg rfl
  refine ⟨hg, hnone, ?_, ?_⟩ <;> rw [mainModel_raised hnone]

/-- Witness for C9: a single empty directory named evil.png. -/
theorem c9_witness :
    FSNode.dir "evil.png" [] ∈ exPngDir ∧
    pngName "evil.png" = true ∧
    (FSNode.dir "evil.png" [] ∈ globPng exPngDir ∧
      processDirectory exPngDir = none ∧
      (mainModel "pics" "o.json" (some (.dir "pics" exPngDir))).written = none ∧
      (mainModel "pics" "o.json" (some (.dir "pics" exPngDir))).raised = true) :=
  ⟨List.Mem.head _, by decide,
    c9_png_named_dir "pics" "o.json" "pics" "evil.png" [] exPngDir (List.Mem.head _) (by decide)⟩

/-- Claim C10: the single top-level key of the written document is the
final path component of the directory argument, and that component is
the empty string for the inputs . and /, so an existing directory can
produce a document keyed by the empty string. -/
theorem c10_empty_key (d o n : String) (children : List FSNode) (r : DirResult)
    (h : processDirectory children = some r) :
    (mainModel d o (some (.dir n children))).written = some (pathName d, r) ∧
    pathName "." = "" ∧ pathName "/" = "" := by
  refine ⟨?_, rfl, rfl⟩
  simp [mainModel, h]

/-- Witness for C10: running on the current directory writes a document
whose only key is the empty string. -/
theorem c10_witness :
    processDirectory [] = some (Sum.inl []) ∧
    ((mainModel "." "out.json" (some (.dir "x" []))).written =
        some (pathName ".", Sum.inl []) ∧
      pathName "." = "" ∧ pathName "/" = "") :=
  ⟨rfl, c10_empty_key "." "out.json" "x" [] (Sum.inl []) rfl⟩

/-! ### Theorems: the nested case (claims C2 and C3) -/

theorem nodup_of_namesDistinct {l : List String} (h : namesDistinct l = true) : l.Nodup := by
  induction l with
  | nil => exact List.nodup_nil
  | cons s ss ih =>
    rw [namesDistinct, Bool.and_eq_true] at h
    refine List.nodup_cons.mpr ⟨fun hm => ?_, ih h.2⟩
    have hc : ss.contains s = true := List.elem_iff.mpr hm
    have h1 := h.1
    rw [hc] at h1
    simp at h1

theorem dictInsert_of_not_mem {k : String} {v : List Entry} {acc : Bucketing}
    (h : k ∉ acc.map Prod.fst) : dictInsert k v acc = acc ++ [(k, v)] := by
  induction acc with
  | nil => rfl
  | cons p ps ih =>
    obtain ⟨k', v'⟩ := p
    have hne : k' ≠ k := fun he => h (by simp [he])
    simp only [dictInsert, if_neg hne, List.cons_append, List.cons.injEq, true_and]
    exact ih (fun hm => h (List.mem_cons_of_mem _ hm))

theorem specBuckets_keys {ds : List FSNode} {bs : Bucketing} (h : specBuckets ds = some bs) :
    bs.map Prod.fst = (ds.filter (fun d => !(rglobPng d).isEmpty)).map nodeName := by
  induction ds generalizing bs with
  | nil =>
    simp only [specBuckets, Option.some_inj] at h
    subst h
    rfl
  | cons d ds ih =>
    by_cases he : (rglobPng d).isEmpty = true
    · rw [specBuckets, if_pos he] at h
      simp [List.filter_cons, he, ih h]
    · rw [specBuckets, if_neg he] at h
      cases hmk : mkEntries (rglobPng d) with
      | none => rw [hmk] at h; exact absurd h (by simp)
      | some es =>
        rw [hmk] at h
        cases hsb : specBuckets ds with
        | none => rw [hsb] at h; exact absurd h (by simp)
        | some rest =>
          rw [hsb] at h
          have hbs : bs = (nodeName d, sortEntries es) :: rest := by
            have := Option.some.inj h
            exact this.symm
          subst hbs
          have he' : (rglobPng d).isEmpty = false := by
            cases hx : (rglobPng d).isEmpty with
            | true => exact absurd hx he
            | false => rfl
          simp [List.filter_cons, he', ih hsb]

theorem specBuckets_values {ds : List FSNode} {bs : Bucketing} (h : specBuckets ds = some bs) :
    ∀ p ∈ bs, p.2.Pairwise (fun a b => entryLeB a b = true) := by
  induction ds generalizing bs with
  | nil =>
    simp only [specBuckets, Option.some_inj] at h
    subst h
    intro p hp
    cases hp
  | cons d ds ih =>
    by_cases he : (rglobPng d).isEmpty = true
    · rw [specBuckets, if_pos he] at h
      exact ih h
    · rw [specBuckets, if_neg he] at h
      cases hmk : mkEntries (rglobPng d) with
      | none => rw [hmk] at h; exact absurd h (by simp)
      | some es =>
        rw [hmk] at h
        cases hsb : specBuckets ds with
        | none => rw [hsb] at h; exact absurd h (by simp)
        | some rest =>
          rw [hsb] at h
          have hbs : bs = (nodeName d, sortEntries es) :: rest := (Option.some.inj h).symm
          subst hbs
          intro p hp
          rcases List.mem_cons.mp hp with rfl | hp
          · exact sortEntries_pairwise es
          · exact ih hsb p hp

theorem buildBuckets_eq_spec {ds : List FSNode} :
    ∀ acc : Bucketing, (ds.map nodeName).Nodup →
      (∀ n ∈ ds.map nodeName, n ∉ acc.map Prod.fst) →
      buildBuckets acc ds = (specBuckets ds).map (fun bs => acc ++ bs) := by
  induction ds with
  | nil => intro acc _ _; simp [buildBuckets, specBuckets]
  | cons d ds ih =>
    intro acc hnd hdisj
    have hnd' : (ds.map nodeName).Nodup := (List.nodup_cons.mp (by simpa using hnd)).2
    have hdhead : nodeName d ∉ ds.map nodeName := (List.nodup_cons.mp (by simpa using hnd)).1
    by_cases he : (rglobPng d).isEmpty = true
    · simp only [buildBuckets, specBuckets, if_pos he]
      exact ih acc hnd' (fun n hn => hdisj n (by simp [hn]))
    · simp only [buildBuckets, specBuckets, if_neg he]
      cases hmk : mkEntries (rglobPng d) with
      | none => rfl
      | some es =>
        dsimp only
        have hd : nodeName d ∉ acc.map Prod.fst := hdisj _ (by simp)
        rw [dictInsert_of_not_mem hd]
        rw [ih (acc ++ [(nodeName d, sortEntries es)]) hnd' ?_]
        · cases specBuckets ds <;> simp
        · intro n hn
          rw [List.map_append, List.mem_append]
          rintro (hna | hnb)
          · exact hdisj n (by simp [hn]) hna
          · have : n = nodeName d := by simpa using hnb
            exact hdhead (this ▸ hn)

/-- Under realistic key hypotheses (distinct sibling names, no
subdirectory literally named _root) the nested branch of
process_directory computes exactly the mapping the specification
describes. -/
theorem processDirectory_eq_specNested (children : List FSNode)
    (hnf : flatCase children = false)
    (hnd : namesDistinct (children.map nodeName) = true)
    (hnr : noRootSub children = true) :
    processDirectory children = specNested children := by
  have hnodup : ((sortSubdirs (children.filter isDir)).map nodeName).Nodup := by
    have h1 : (children.map nodeName).Nodup := nodup_of_namesDistinct hnd
    have h2 : ((children.filter isDir).map nodeName).Nodup :=
      List.Nodup.sublist ((List.filter_sublist children).map nodeName) h1
    exact (List.Perm.map nodeName (sortSubdirs_perm _)).symm.nodup h2
  rw [processDirectory, if_neg (by simp [hnf]), specNested]
  rw [buildBuckets_eq_spec [] hnodup (by simp)]
  cases hsb : specBuckets (sortSubdirs (children.filter isDir)) with
  | none => rfl
  | some bs =>
    simp only [Option.map_some', List.nil_append]
    by_cases hre : (globPng children).isEmpty = true
    · simp [hre]
    · rw [if_neg hre, if_neg hre]
      cases hmk : mkEntries (globPng children) with
      | none => rfl
      | some es =>
        dsimp only
        have hroot_notin : "_root" ∉ bs.map Prod.fst := by
          rw [specBuckets_keys hsb]
          intro hmem
          rcases List.mem_map.mp hmem with ⟨x, hx, hxname⟩
          have hx' : x ∈ children.filter isDir :=
            (sortSubdirs_perm _).mem_iff.mp (List.mem_filter.mp hx).1
          have hb := List.all_eq_true.mp hnr x hx'
          rw [hxname] at hb
          simp at hb
        rw [dictInsert_of_not_mem hroot_notin]
        simp

/-- When some PNG is discovered, the spec-side nested result is the
mapping form. -/
theorem specNested_some_mapping {children : List FSNode} {r : DirResult}
    (hp : anyPng children = true) (hv : specNested children = some r) :
    ∃ m, r = Sum.inr m := by
  rw [specNested] at hv
  cases hsb : specBuckets (sortSubdirs (children.filter isDir)) with
  | none => rw [hsb] at hv; exact absurd hv (by simp)
  | some bs =>
    rw [hsb] at hv
    dsimp only at hv
    by_cases hre : (globPng children).isEmpty = true
    · rw [if_pos hre] at hv
      have hsubx : ∃ d ∈ children.filter isDir, (rglobPng d).isEmpty = false := by
        have hany : (children.filter isDir).any (fun d => !(rglobPng d).isEmpty) = true := by
          simpa [anyPng, hre] using hp
        rcases List.any_eq_true.mp hany with ⟨d, hd, hdd⟩
        exact ⟨d, hd, by simpa using hdd⟩
      rcases hsubx with ⟨d, hd, hdne⟩
      have hdmem : d ∈ (sortSubdirs (children.filter isDir)).filter
          (fun x => !(rglobPng x).isEmpty) :=
        List.mem_filter.mpr ⟨(sortSubdirs_perm _).mem_iff.mpr hd, by simp [hdne]⟩
      have hbs : bs.isEmpty = false := by
        cases hb : bs with
        | nil =>
          have hkeys := specBuckets_keys hsb
          rw [hb] at hkeys
          rcases List.map_eq_nil_iff.mp hkeys.symm with hfil
          rw [hfil] at hdmem
          cases hdmem
        | cons p ps => rfl
      rw [hbs] at hv
      exact ⟨bs, (Option.some.inj hv).symm ▸ rfl⟩
    · rw [if_neg hre] at hv
      cases hmk : mkEntries (globPng children) with
      | none => rw [hmk] at hv; exact absurd hv (by simp)
      | some es =>
        rw [hmk] at hv
        exact ⟨bs ++ [("_root", sortEntries es)], (Option.some.inj hv).symm⟩

/-- Claim C2 (amended): off the flat case, with distinct sibling names
and no subdirectory named _root, process_directory computes exactly the
mapping the specification describes (sorted subdirectory buckets, then
_root), and the result is the mapping form whenever at least one PNG is
discovered; a directory with no PNG at all falls back to the empty list
instead. -/
theorem c2_nested_case (children : List FSNode)
    (hnf : flatCase children = false)
    (hnd : namesDistinct (children.map nodeName) = true)
    (hnr : noRootSub children = true) :
    processDirectory children = specNested children ∧
    (anyPng children = true →
      processDirectory children = none ∨ isMapping (processDirectory children) = true) := by
  have heq := processDirectory_eq_specNested children hnf hnd hnr
  refine ⟨heq, fun hp => ?_⟩
  cases hv : specNested children with
  | none => left; rw [heq, hv]
  | some r =>
    right
    rcases specNested_some_mapping hp hv with ⟨m, rfl⟩
    rw [heq, hv]
    rfl

/-- Counterexample for C2 as stated: a directory that is not classified
as flat (a PNG-free subdirectory, no root PNG) returns the empty list,
not a mapping. -/
theorem c2_counterexample :
    flatCase exNotFlat = false ∧
    processDirectory exNotFlat = some (Sum.inl []) ∧
    isMapping (processDirectory exNotFlat) = false := by
  exact ⟨rfl, rfl, rfl⟩

/-- Witness for C2 at a nested directory with a subdirectory PNG and a
root PNG. -/
theorem c2_witness :
    flatCase exNested = false ∧
    namesDistinct (exNested.map nodeName) = true ∧
    noRootSub exNested = true ∧
    (processDirectory exNested = specNested exNested ∧
      (anyPng exNested = true →
        processDirectory exNested = none ∨ isMapping (processDirectory exNested) = true)) :=
  ⟨by decide, by decide, by decide, c2_nested_case exNested (by decide) (by decide) (by decide)⟩

/-- Counterexample for C3 as stated: with a subdirectory named sub and a
root PNG, the keys come out as sub then _root, which is not ascending
when _root is ordered like an ordinary key (underscore sorts before
lowercase letters). -/
theorem c3_counterexample :
    resultKeys (processDirectory exNested) = ["sub", "_root"] ∧
    ¬ List.Pairwise (fun a b : String => strLeB a.data b.data = true)
        (resultKeys (processDirectory exNested)) := by
  constructor
  · decide
  · decide

/-- Claim C3 (amended): in a nested result the subdirectory keys appear
sorted ascending by name and the reserved key _root, when present, is
appended after all of them rather than ordered among them; entries under
every key are sorted ascending by name. (Sibling names are assumed
distinct and no subdirectory is itself named _root, so dict assignment
never overwrites.) -/
theorem c3_key_order (children : List FSNode) (m : Bucketing)
    (hnd : namesDistinct (children.map nodeName) = true)
    (hnr : noRootSub children = true)
    (hm : processDirectory children = some (Sum.inr m)) :
    m.map Prod.fst =
      ((sortSubdirs (children.filter isDir)).filter
          (fun d => !(rglobPng d).isEmpty)).map nodeName ++
        (if (globPng children).isEmpty then [] else ["_root"]) ∧
    List.Pairwise (fun a b : String => strLeB a.data b.data = true)
      (((sortSubdirs (children.filter isDir)).filter
          (fun d => !(rglobPng d).isEmpty)).map nodeName) ∧
    (∀ p ∈ m, p.2.Pairwise (fun a b => entryLeB a b = true)) := by
  have hnf : flatCase children = false := by
    cases hf : flatCase children with
    | false => rfl
    | true =>
      rw [processDirectory, if_pos hf] at hm
      cases hmk : mkEntries (globPng children) with
      | none => rw [hmk] at hm; exact absurd hm (by simp)
      | some es => rw [hmk] at hm; exact absurd (Option.some.inj hm) (by simp)
  have hpair : List.Pairwise (fun a b : String => strLeB a.data b.data = true)
      (((sortSubdirs (children.filter isDir)).filter
          (fun d => !(rglobPng d).isEmpty)).map nodeName) := by
    have h1 := sortSubdirs_pairwise (children.filter isDir)
    have h2 : List.Pairwise (fun x y => nodeLeB x y = true)
        ((sortSubdirs (children.filter isDir)).filter (fun d => !(rglobPng d).isEmpty)) :=
      List.Pairwise.sublist (List.filter_sublist _) h1
    exact List.pairwise_map.mpr h2
  have heq := processDirectory_eq_specNested children hnf hnd hnr
  rw [heq, specNested] at hm
  cases hsb : specBuckets (sortSubdirs (children.filter isDir)) with
  | none => rw [hsb] at hm; exact absurd hm (by simp)
  | some bs =>
    rw [hsb] at hm
    dsimp only at hm
    by_cases hre : (globPng children).isEmpty = true
    · rw [if_pos hre] at hm
      cases hbe : bs.isEmpty with
      | true => rw [hbe] at hm; exact absurd (Option.some.inj hm) (by simp)
      | false =>
        rw [hbe] at hm
        have hmbs : m = bs := by
          have := Option.some.inj hm
          exact (Sum.inr.inj this).symm
        subst hmbs
        refine ⟨?_, hpair, specBuckets_values hsb⟩
        rw [if_pos hre, List.append_nil]
        exact specBuckets_keys hsb
    · rw [if_neg hre] at hm
      cases hmk : mkEntries (globPng children) with
      | none => rw [hmk] at hm; exact absurd hm (by simp)
      | some es =>
        rw [hmk] at hm
        have hmbs : m = bs ++ [("_root", sortEntries es)] := by
          have := Option.some.inj hm
          exact (Sum.inr.inj this).symm
        subst hmbs
        refine ⟨?_, hpair, ?_⟩
        · rw [if_neg hre, List.map_append, specBuckets_keys hsb]
          rfl
        · intro p hp
          rcases List.mem_append.mp hp with hp | hp
          · exact specBuckets_values hsb p hp
          · have : p = ("_root", sortEntries es) := by simpa using hp
            subst this
            exact sortEntries_pairwise es

/-- Witness for C3 at a nested directory with one subdirectory bucket
and a root bucket. -/
theorem c3_witness :
    namesDistinct (exNested.map nodeName) = true ∧
    noRootSub exNested = true ∧
    processDirectory exNested =
      some (Sum.inr
        [("sub", [{name := "a.png", data := "data:image/png;base64,"}]),
         ("_root", [{name := "r.png", data := "data:image/png;base64,"}])]) ∧
    (([("sub", [{name := "a.png", data := "data:image/png;base64,"}]),
       ("_root", [{name := "r.png", data := "data:image/png;base64,"}])] : Bucketing).map Prod.fst =
        ((sortSubdirs (exNested.filter isDir)).filter
            (fun d => !(rglobPng d).isEmpty)).map nodeName ++
          (if (globPng exNested).isEmpty then [] else ["_root"]) ∧
      List.Pairwise (fun a b : String => strLeB a.data b.data = true)
        (((sortSubdirs (exNested.filter isDir)).filter
            (fun d => !(rglobPng d).isEmpty)).map nodeName) ∧
      (∀ p ∈ ([("sub", [{name := "a.png", data := "data:image/png;base64,"}]),
               ("_root", [{name := "r.png", data := "data:image/png;base64,"}])] : Bucketing),
        p.2.Pairwise (fun a b => entryLeB a b = true))) :=
  ⟨by decide, by decide, by decide,
    c3_key_order exNested
      [("sub", [{name := "a.png", data := "data:image/png;base64,"}]),
       ("_root", [{name := "r.png", data := "data:image/png;base64,"}])]
      (by decide) (by decide) (by decide)⟩

/-! ### Theorems: snapshot equivalence infrastructure (claim C8) -/

theorem ssList_nil {l : List FSNode} (h : SSList [] l) : l = [] := by
  cases l with
  | nil => rfl
  | cons b bs => simp [SSList] at h

theorem ssList_cons {a : FSNode} {as l : List FSNode} (h : SSList (a :: as) l) :
    ∃ b bs, l = b :: bs ∧ SameSnapshot a b ∧ SSList as bs := by
  cases l with
  | nil => simp [SSList] at h
  | cons b bs =>
    have h' : SameSnapshot a b ∧ SSList as bs := h
    exact ⟨b, bs, rfl, h'.1, h'.2⟩

theorem ss_name {a b : FSNode} (h : SameSnapshot a b) : nodeName a = nodeName b := by
  cases a with
  | file n c =>
    cases b with
    | file n' c' =>
      have h' : n = n' ∧ c = c' := h
      simp [nodeName, h'.1]
    | dir n' cs' => exact absurd h (by simp [SameSnapshot])
  | dir n cs =>
    cases b with
    | file n' c' => exact absurd h (by simp [SameSnapshot])
    | dir n' cs' =>
      have h' : n = n' ∧ ∃ l, SSList cs l ∧ l.Perm cs' := h
      simp [nodeName, h'.1]

theorem ss_isDir {a b : FSNode} (h : SameSnapshot a b) : isDir a = isDir b := by
  cases a <;> cases b <;> first
    | rfl
    | exact absurd h (by simp [SameSnapshot])

theorem ss_entryOf {a b : FSNode} (h : SameSnapshot a b) : entryOf a = entryOf b := by
  cases a with
  | file n c =>
    cases b with
    | file n' c' =>
      have h' : n = n' ∧ c = c' := h
      rw [h'.1, h'.2]
    | dir n' cs' => exact absurd h (by simp [SameSnapshot])
  | dir n cs =>
    cases b with
    | file n' c' => exact absurd h (by simp [SameSnapshot])
    | dir n' cs' => rfl

theorem ssList_refl_of {cs : List FSNode} (h : ∀ a ∈ cs, SameSnapshot a a) : SSList cs cs := by
  induction cs with
  | nil => trivial
  | cons a as ih =>
    exact ⟨h a (List.mem_cons_self a as), ih (fun x hx => h x (List.mem_cons_of_mem a hx))⟩

theorem ss_refl (t : FSNode) : SameSnapshot t t := by
  have main : ∀ n t, sizeOf t ≤ n → SameSnapshot t t := by
    intro n
    induction n with
    | zero =>
      intro t h
      exact absurd h (by cases t <;> simp)
    | succ n ih =>
      intro t h
      match t with
      | .file nm c => exact ⟨rfl, rfl⟩
      | .dir nm cs =>
        refine ⟨rfl, cs, ssList_refl_of ?_, List.Perm.refl cs⟩
        intro a ha
        apply ih
        have h1 := List.sizeOf_lt_of_mem ha
        have h2 : sizeOf (FSNode.dir nm cs) = 1 + sizeOf nm + sizeOf cs := by simp
        omega
  exact main (sizeOf t) t (le_refl _)

theorem ssList_refl (l : List FSNode) : SSList l l :=
  ssList_refl_of (fun a _ => ss_refl a)

theorem ssList_append : ∀ {as bs l₁ l₂ : List FSNode},
    SSList as l₁ → SSList bs l₂ → SSList (as ++ bs) (l₁ ++ l₂) := by
  intro as
  induction as with
  | nil =>
    intro bs l₁ l₂ h1 h2
    rw [ssList_nil h1]
    exact h2
  | cons a as ih =>
    intro bs l₁ l₂ h1 h2
    obtain ⟨b, l₁', rfl, hab, hss⟩ := ssList_cons h1
    exact ⟨hab, ih hss h2⟩

theorem ssList_map_eq {α : Type} (f : FSNode → α) (hf : ∀ a b, SameSnapshot a b → f a = f b) :
    ∀ {l₁ l₂ : List FSNode}, SSList l₁ l₂ → l₁.map f = l₂.map f := by
  intro l₁
  induction l₁ with
  | nil =>
    intro l₂ h
    rw [ssList_nil h]
  | cons a as ih =>
    intro l₂ h
    obtain ⟨b, bs, rfl, hab, hss⟩ := ssList_cons h
    simp [hf a b hab, ih hss]

theorem ssList_filter (p : FSNode → Bool) (hp : ∀ a b, SameSnapshot a b → p a = p b) :
    ∀ {l₁ l₂ : List FSNode}, SSList l₁ l₂ → SSList (l₁.filter p) (l₂.filter p) := by
  intro l₁
  induction l₁ with
  | nil =>
    intro l₂ h
    rw [ssList_nil h]
    trivial
  | cons a as ih =>
    intro l₂ h
    obtain ⟨b, bs, rfl, hab, hss⟩ := ssList_cons h
    rw [List.filter_cons, List.filter_cons, ← hp a b hab]
    by_cases hpa : p a = true
    · rw [if_pos hpa, if_pos hpa]
      exact ⟨hab, ih hss⟩
    · rw [if_neg hpa, if_neg hpa]
      exact ih hss

theorem relL_refl (l : List FSNode) : RelL l l := ⟨l, ssList_refl l, List.Perm.refl l⟩

theorem relL_perm_right {a b c : List FSNode} (h : RelL a b) (hp : b.Perm c) : RelL a c := by
  obtain ⟨l, hss, hpl⟩ := h
  exact ⟨l, hss, hpl.trans hp⟩

theorem relL_map_perm {α : Type} (f : FSNode → α) (hf : ∀ a b, SameSnapshot a b → f a = f b)
    {l₁ l₂ : List FSNode} (h : RelL l₁ l₂) : (l₁.map f).Perm (l₂.map f) := by
  obtain ⟨l, hss, hp⟩ := h
  rw [ssList_map_eq f hf hss]
  exact hp.map f

theorem relL_length {l₁ l₂ : List FSNode} (h : RelL l₁ l₂) : l₁.length = l₂.length := by
  have := (relL_map_perm nodeName (fun a b hab => ss_name hab) h).length_eq
  simpa using this

theorem relL_isEmpty {l₁ l₂ : List FSNode} (h : RelL l₁ l₂) : l₁.isEmpty = l₂.isEmpty := by
  have hl := relL_length h
  cases l₁ <;> cases l₂ <;> simp_all

theorem relL_filter (p : FSNode → Bool) (hp : ∀ a b, SameSnapshot a b → p a = p b)
    {l₁ l₂ : List FSNode} (h : RelL l₁ l₂) : RelL (l₁.filter p) (l₂.filter p) := by
  obtain ⟨l, hss, hperm⟩ := h
  exact ⟨l.filter p, ssList_filter p hp hss, hperm.filter p⟩

theorem relL_append {a₁ a₂ b₁ b₂ : List FSNode} (ha : RelL a₁ a₂) (hb : RelL b₁ b₂) :
    RelL (a₁ ++ b₁) (a₂ ++ b₂) := by
  obtain ⟨la, hssa, hpa⟩ := ha
  obtain ⟨lb, hssb, hpb⟩ := hb
  exact ⟨la ++ lb, ssList_append hssa hssb, hpa.append hpb⟩

theorem rglobAux_eq_flatMap (cs : List FSNode) :
    rglobAux cs = cs.flatMap (fun t => if isDir t then rglobPng t else []) := by
  induction cs with
  | nil => rfl
  | cons t ts ih => simp [rglobAux, ih, List.flatMap_cons]

theorem rglobAux_perm {l₁ l₂ : List FSNode} (h : l₁.Perm l₂) :
    (rglobAux l₁).Perm (rglobAux l₂) := by
  rw [rglobAux_eq_flatMap, rglobAux_eq_flatMap]
  exact List.Perm.flatMap_right _ h

theorem rglobAux_relL_of_pointwise : ∀ {cs l : List FSNode}, SSList cs l →
    (∀ a ∈ cs, ∀ b, SameSnapshot a b → RelL (rglobPng a) (rglobPng b)) →
    RelL (rglobAux cs) (rglobAux l) := by
  intro cs
  induction cs with
  | nil =>
    intro l hss _
    rw [ssList_nil hss]
    exact relL_refl _
  | cons a as ih =>
    intro l hss hIH
    obtain ⟨b, bs, rfl, hab, hss'⟩ := ssList_cons hss
    show RelL ((if isDir a then rglobPng a else []) ++ rglobAux as)
        ((if isDir b then rglobPng b else []) ++ rglobAux bs)
    have htail : RelL (rglobAux as) (rglobAux bs) :=
      ih hss' (fun x hx => hIH x (List.mem_cons_of_mem a hx))
    rw [← ss_isDir hab]
    by_cases hda : isDir a = true
    · rw [if_pos hda, if_pos hda]
      exact relL_append (hIH a (List.mem_cons_self a as) b hab) htail
    · rw [if_neg hda, if_neg hda]
      exact relL_append (relL_refl []) htail

/-- Nodes showing the same snapshot produce rglob match lists that also
show the same snapshot up to order. -/
theorem ss_rglob {t₁ t₂ : FSNode} (h : SameSnapshot t₁ t₂) :
    RelL (rglobPng t₁) (rglobPng t₂) := by
  have main : ∀ n t₁, sizeOf t₁ ≤ n → ∀ t₂, SameSnapshot t₁ t₂ →
      RelL (rglobPng t₁) (rglobPng t₂) := by
    intro n
    induction n with
    | zero =>
      intro t₁ hsz
      exact absurd hsz (by cases t₁ <;> simp)
    | succ n ih =>
      intro t₁ hsz t₂ h
      match t₁, t₂ with
      | .file nm c, .file nm' c' => exact relL_refl []
      | .file nm c, .dir nm' cs' => exact absurd h (by simp [SameSnapshot])
      | .dir nm cs, .file nm' c' => exact absurd h (by simp [SameSnapshot])
      | .dir nm cs, .dir nm' cs' =>
        have h' : nm = nm' ∧ ∃ l, SSList cs l ∧ l.Perm cs' := h
        obtain ⟨-, l, hss, hperm⟩ := h'
        show RelL (globPng cs ++ rglobAux cs) (globPng cs' ++ rglobAux cs')
        have hIH : ∀ a ∈ cs, ∀ b, SameSnapshot a b → RelL (rglobPng a) (rglobPng b) := by
          intro a ha b hab
          apply ih a ?_ b hab
          have h1 := List.sizeOf_lt_of_mem ha
          have h2 : sizeOf (FSNode.dir nm cs) = 1 + sizeOf nm + sizeOf cs := by simp
          omega
        have hr : RelL cs cs' := ⟨l, hss, hperm⟩
        have hglob : RelL (globPng cs) (globPng cs') :=
          relL_filter _ (fun a b hab => by rw [ss_name hab]) hr
        have haux1 : RelL (rglobAux cs) (rglobAux l) := rglobAux_relL_of_pointwise hss hIH
        exact relL_append hglob (relL_perm_right haux1 (rglobAux_perm hperm))
  exact main (sizeOf t₁) t₁ (le_refl _) t₂ h

theorem mkEntries_map_some : ∀ {l : List FSNode} {es : List Entry},
    mkEntries l = some es → l.map entryOf = es.map some := by
  intro l
  induction l with
  | nil =>
    intro es h
    simp only [mkEntries, Option.some_inj] at h
    subst h
    rfl
  | cons t ts ih =>
    intro es h
    rw [mkEntries] at h
    cases he : entryOf t with
    | none => rw [he] at h; exact absurd h (by simp)
    | some e =>
      rw [he] at h
      cases hm : mkEntries ts with
      | none => rw [hm] at h; exact absurd h (by simp)
      | some es' =>
        rw [hm] at h
        have : e :: es' = es := Option.some.inj h
        subst this
        simp [he, ih hm]

theorem mkEntries_eq_none_iff (l : List FSNode) :
    mkEntries l = none ↔ ∃ t ∈ l, entryOf t = none := by
  induction l with
  | nil => simp [mkEntries]
  | cons t ts ih =>
    rw [mkEntries]
    cases he : entryOf t with
    | none => simp [he]
    | some e =>
      cases hm : mkEntries ts with
      | none => simp [he, hm, ih.mp hm]
      | some es' => simp [he, hm, ← ih]

theorem perm_of_map_some {α : Type} [DecidableEq α] {l₁ l₂ : List α}
    (h : (l₁.map some).Perm (l₂.map some)) : l₁.Perm l₂ := by
  rw [List.perm_iff_count]
  intro a
  have hc := List.perm_iff_count.mp h (some a)
  rwa [List.count_map_of_injective _ _ (Option.some_injective α) a,
    List.count_map_of_injective _ _ (Option.some_injective α) a] at hc

theorem mkEntries_perm_none {l₁ l₂ : List FSNode}
    (hp : (l₁.map entryOf).Perm (l₂.map entryOf)) (h : mkEntries l₁ = none) :
    mkEntries l₂ = none := by
  rw [mkEntries_eq_none_iff] at h ⊢
  rcases h with ⟨t, ht, hnone⟩
  have hmem : (none : Option Entry) ∈ l₂.map entryOf :=
    hp.mem_iff.mp (List.mem_map.mpr ⟨t, ht, hnone⟩)
  exact List.mem_map.mp hmem

theorem mkEntries_perm_some {l₁ l₂ : List FSNode} {es₁ : List Entry}
    (hp : (l₁.map entryOf).Perm (l₂.map entryOf)) (h : mkEntries l₁ = some es₁) :
    ∃ es₂, mkEntries l₂ = some es₂ ∧ es₁.Perm es₂ := by
  cases hm : mkEntries l₂ with
  | none =>
    have := mkEntries_perm_none hp.symm hm
    rw [this] at h
    exact absurd h (by simp)
  | some es₂ =>
    refine ⟨es₂, rfl, ?_⟩
    apply perm_of_map_some
    rw [← mkEntries_map_some h, ← mkEntries_map_some hm]
    exact hp

theorem ssList_perm_left {l₁' l₁ : List FSNode} (hp : l₁'.Perm l₁) :
    ∀ {l}, SSList l₁ l → ∃ l', SSList l₁' l' ∧ l'.Perm l := by
  induction hp with
  | nil =>
    intro l h
    exact ⟨l, h, List.Perm.refl l⟩
  | cons x p ih =>
    intro l h
    obtain ⟨b, bs, rfl, hxb, hss⟩ := ssList_cons h
    obtain ⟨bs', hss', hperm'⟩ := ih hss
    exact ⟨b :: bs', ⟨hxb, hss'⟩, hperm'.cons b⟩
  | swap x y t =>
    intro l h
    obtain ⟨b1, l1, rfl, hx1, hrest⟩ := ssList_cons h
    obtain ⟨b2, l2, rfl, hy2, hss⟩ := ssList_cons hrest
    exact ⟨b2 :: b1 :: l2, ⟨hy2, hx1, hss⟩, List.Perm.swap b1 b2 l2⟩
  | trans p₁ p₂ ih₁ ih₂ =>
    intro l h
    obtain ⟨lm, hssm, hpm⟩ := ih₂ h
    obtain ⟨l', hss', hp'⟩ := ih₁ hssm
    exact ⟨l', hss', hp'.trans hpm⟩

theorem relL_of_perm_left {l₁' l₁ l₂ : List FSNode} (hp : l₁'.Perm l₁) (h : RelL l₁ l₂) :
    RelL l₁' l₂ := by
  obtain ⟨l, hss, hperm⟩ := h
  obtain ⟨l', hss', hp'⟩ := ssList_perm_left hp hss
  exact ⟨l', hss', hp'.trans hperm⟩

theorem relL_sortSubdirs {l₁ l₂ : List FSNode} (h : RelL l₁ l₂) :
    RelL (sortSubdirs l₁) (sortSubdirs l₂) :=
  relL_perm_right (relL_of_perm_left (sortSubdirs_perm l₁) h) (sortSubdirs_perm l₂).symm

/-- A name-sorted list with pairwise distinct names is pairwise strictly
below in the name order. -/
theorem sortSubdirs_pairwise_strict {X : List FSNode} (hnd : (X.map nodeName).Nodup) :
    (sortSubdirs X).Pairwise
      (fun a b => nodeLeB a b = true ∧ nodeName a ≠ nodeName b) := by
  have h1 := sortSubdirs_pairwise X
  have h2 : ((sortSubdirs X).map nodeName).Nodup :=
    (List.Perm.map nodeName (sortSubdirs_perm X)).symm.nodup hnd
  have h3 : (sortSubdirs X).Pairwise (fun a b => nodeName a ≠ nodeName b) :=
    List.pairwise_map.mp h2
  exact h1.and h3

/-- Lists showing the same snapshot up to order, both sorted strictly by
name, are pointwise the same snapshot: sorting aligns the matching
elements. -/
theorem align : ∀ {t₁ t₂ : List FSNode}, RelL t₁ t₂ →
    t₁.Pairwise (fun a b => nodeLeB a b = true ∧ nodeName a ≠ nodeName b) →
    t₂.Pairwise (fun a b => nodeLeB a b = true ∧ nodeName a ≠ nodeName b) →
    SSList t₁ t₂ := by
  intro t₁
  induction t₁ with
  | nil =>
    intro t₂ h _ _
    obtain ⟨l, hss, hp⟩ := h
    rw [ssList_nil hss] at hp
    have ht : t₂ = [] := hp.symm.eq_nil
    subst ht
    trivial
  | cons a t₁' ih =>
    intro t₂ h hs₁ hs₂
    obtain ⟨l, hss, hp⟩ := h
    obtain ⟨b, l', rfl, hab, hss'⟩ := ssList_cons hss
    cases t₂ with
    | nil => exact absurd hp.eq_nil (by simp)
    | cons c t₂' =>
      have hbmem : b ∈ c :: t₂' := hp.mem_iff.mp (List.mem_cons_self b l')
      have hnameba : nodeName b = nodeName a := (ss_name hab).symm
      by_cases hbc : b = c
      · subst hbc
        have hp' : l'.Perm t₂' := hp.cons_inv
        have ihr : SSList t₁' t₂' :=
          ih ⟨l', hss', hp'⟩ (List.pairwise_cons.mp hs₁).2 (List.pairwise_cons.mp hs₂).2
        exact ⟨hab, ihr⟩
      · exfalso
        have hbt : b ∈ t₂' := by
          rcases List.mem_cons.mp hbmem with h | h
          · exact absurd h hbc
          · exact h
        have h1 := (List.pairwise_cons.mp hs₂).1 b hbt
        have hcmem : c ∈ b :: l' := hp.mem_iff.mpr (List.mem_cons_self c t₂')
        have hct : c ∈ l' := by
          rcases List.mem_cons.mp hcmem with h | h
          · exact absurd h.symm hbc
          · exact h
        have hnames : t₁'.map nodeName = l'.map nodeName :=
          ssList_map_eq nodeName (fun x y hxy => ss_name hxy) hss'
        have hc_in : nodeName c ∈ t₁'.map nodeName := by
          rw [hnames]
          exact List.mem_map.mpr ⟨c, hct, rfl⟩
        rcases List.mem_map.mp hc_in with ⟨x, hx, hxname⟩
        have h2 := (List.pairwise_cons.mp hs₁).1 x hx
        have e1 : strLeB (nodeName c).data (nodeName a).data = true := by
          have := h1.1
          rw [nodeLeB, hnameba] at this
          exact this
        have e2 : strLeB (nodeName a).data (nodeName c).data = true := by
          have := h2.1
          rw [nodeLeB, hxname] at this
          exact this
        have hdata : (nodeName a).data = (nodeName c).data := strLeB_antisymm _ _ e2 e1
        have hac : nodeName a = nodeName c := stringDataInj hdata
        exact h2.2 (by rw [hac, hxname])

/-- The bucket-filling loop gives the same result on two pointwise
snapshot-equal subdirectory lists, provided every bucket has pairwise
distinct entry names. -/
theorem buildBuckets_congr : ∀ {ds₁ ds₂ : List FSNode}, SSList ds₁ ds₂ →
    (∀ d ∈ ds₁, ((rglobPng d).map nodeName).Nodup) →
    ∀ acc, buildBuckets acc ds₁ = buildBuckets acc ds₂ := by
  intro ds₁
  induction ds₁ with
  | nil =>
    intro ds₂ hss _ acc
    rw [ssList_nil hss]
  | cons d ds ih =>
    intro ds₂ hss hnd acc
    obtain ⟨e, es', rfl, hde, hss'⟩ := ssList_cons hss
    have hrel : RelL (rglobPng d) (rglobPng e) := ss_rglob hde
    have hemp : (rglobPng d).isEmpty = (rglobPng e).isEmpty := relL_isEmpty hrel
    have hndtail : ∀ x ∈ ds, ((rglobPng x).map nodeName).Nodup :=
      fun x hx => hnd x (List.mem_cons_of_mem d hx)
    by_cases he : (rglobPng d).isEmpty = true
    · rw [buildBuckets, buildBuckets, if_pos he, if_pos (hemp ▸ he)]
      exact ih hss' hndtail acc
    · have he2 : ¬ (rglobPng e).isEmpty = true := by
        rw [← hemp]
        exact he
      rw [buildBuckets, buildBuckets, if_neg he, if_neg he2]
      have hmapperm : ((rglobPng d).map entryOf).Perm ((rglobPng e).map entryOf) :=
        relL_map_perm entryOf (fun a b hab => ss_entryOf hab) hrel
      cases hmk : mkEntries (rglobPng d) with
      | none =>
        rw [mkEntries_perm_none hmapperm hmk]
      | some es1 =>
        obtain ⟨es2, hmk2, hesperm⟩ := mkEntries_perm_some hmapperm hmk
        rw [hmk2]
        dsimp only
        have hnd1 : (es1.map Entry.name).Nodup := by
          rw [mkEntries_names hmk]
          exact hnd d (List.mem_cons_self d ds)
        rw [sortEntries_eq_of_perm hesperm hnd1, ss_name hde]
        exact ih hss' hndtail _

theorem relL_all (f : FSNode → Bool) (hf : ∀ a b, SameSnapshot a b → f a = f b)
    {l₁ l₂ : List FSNode} (h : RelL l₁ l₂) : l₁.all f = l₂.all f := by
  obtain ⟨l, hss, hp⟩ := h
  have h1 : l₁.all f = l.all f := by
    clear hp
    induction l₁ generalizing l with
    | nil => rw [ssList_nil hss]
    | cons a as ih =>
      obtain ⟨b, bs, rfl, hab, hss'⟩ := ssList_cons hss
      simp [hf a b hab, ih bs hss']
  have h2 : l.all f = l₂.all f := by
    rw [Bool.eq_iff_iff, List.all_eq_true, List.all_eq_true]
    exact ⟨fun H x hx => H x (hp.mem_iff.mpr hx), fun H x hx => H x (hp.mem_iff.mp hx)⟩
  rw [h1, h2]

theorem flatCase_congr {c₁ c₂ : List FSNode} (h : RelL c₁ c₂) :
    flatCase c₁ = flatCase c₂ := by
  have hglob : RelL (globPng c₁) (globPng c₂) :=
    relL_filter _ (fun a b hab => by rw [ss_name hab]) h
  have hsub : RelL (c₁.filter isDir) (c₂.filter isDir) :=
    relL_filter isDir (fun a b hab => ss_isDir hab) h
  have h1 : (globPng c₁).isEmpty = (globPng c₂).isEmpty := relL_isEmpty hglob
  have h2 : (c₁.filter isDir).all (fun d => (rglobPng d).isEmpty) =
      (c₂.filter isDir).all (fun d => (rglobPng d).isEmpty) :=
    relL_all _ (fun a b hab => relL_isEmpty (ss_rglob hab)) hsub
  rw [flatCase, flatCase, h1, h2]

/-- Two enumeration orders of the same snapshot give the same
process_directory result, provided sibling names are distinct at the
root and every subdirectory bucket has pairwise distinct entry names. -/
theorem processDirectory_congr (c₁ c₂ : List FSNode) (h : RelL c₁ c₂)
    (hnd : namesDistinct (c₁.map nodeName) = true)
    (hb : bucketsDistinct c₁ = true) :
    processDirectory c₁ = processDirectory c₂ := by
  have hglob : RelL (globPng c₁) (globPng c₂) :=
    relL_filter _ (fun a b hab => by rw [ss_name hab]) h
  have hsub : RelL (c₁.filter isDir) (c₂.filter isDir) :=
    relL_filter isDir (fun a b hab => ss_isDir hab) h
  have hflat := flatCase_congr h
  have hrootnd : (mkEntries (globPng c₁)).elim True
      (fun es => (es.map Entry.name).Nodup) := by
    cases hmk : mkEntries (globPng c₁) with
    | none => trivial
    | some es =>
      show (es.map Entry.name).Nodup
      rw [mkEntries_names hmk]
      exact List.Nodup.sublist ((List.filter_sublist c₁).map nodeName)
        (nodup_of_namesDistinct hnd)
  have hge : (globPng c₁).isEmpty = (globPng c₂).isEmpty := relL_isEmpty hglob
  have hperm : ((globPng c₁).map entryOf).Perm ((globPng c₂).map entryOf) :=
    relL_map_perm entryOf (fun a b hab => ss_entryOf hab) hglob
  by_cases hf : flatCase c₁ = true
  · rw [processDirectory, processDirectory, if_pos hf, if_pos (hflat ▸ hf)]
    cases hmk : mkEntries (globPng c₁) with
    | none => rw [mkEntries_perm_none hperm hmk]
    | some es1 =>
      obtain ⟨es2, hmk2, hesperm⟩ := mkEntries_perm_some hperm hmk
      rw [hmk2]
      dsimp only
      have hnd1 : (es1.map Entry.name).Nodup := by
        have := hrootnd
        rw [hmk] at this
        exact this
      rw [sortEntries_eq_of_perm hesperm hnd1]
  · rw [processDirectory, processDirectory, if_neg hf, if_neg (by rw [← hflat]; exact hf)]
    have hnodup₁ : ((c₁.filter isDir).map nodeName).Nodup :=
      List.Nodup.sublist ((List.filter_sublist c₁).map nodeName) (nodup_of_namesDistinct hnd)
    have hnodup₂ : ((c₂.filter isDir).map nodeName).Nodup :=
      (relL_map_perm nodeName (fun a b hab => ss_name hab) hsub).nodup hnodup₁
    have hsortrel : RelL (sortSubdirs (c₁.filter isDir)) (sortSubdirs (c₂.filter isDir)) :=
      relL_sortSubdirs hsub
    have hss2 : SSList (sortSubdirs (c₁.filter isDir)) (sortSubdirs (c₂.filter isDir)) :=
      align hsortrel (sortSubdirs_pairwise_strict hnodup₁) (sortSubdirs_pairwise_strict hnodup₂)
    have hbnd : ∀ d ∈ sortSubdirs (c₁.filter isDir), ((rglobPng d).map nodeName).Nodup := by
      intro d hd
      have hd' : d ∈ c₁.filter isDir := (sortSubdirs_perm _).mem_iff.mp hd
      exact nodup_of_namesDistinct (List.all_eq_true.mp hb d hd')
    rw [buildBuckets_congr hss2 hbnd []]
    cases hbb : buildBuckets [] (sortSubdirs (c₂.filter isDir)) with
    | none => rfl
    | some base =>
      dsimp only
      by_cases hre : (globPng c₁).isEmpty = true
      · rw [if_pos hre, if_pos (show (globPng c₂).isEmpty = true by rw [← hge]; exact hre)]
      · rw [if_neg hre, if_neg (by rw [← hge]; exact hre)]
        cases hmk : mkEntries (globPng c₁) with
        | none => rw [mkEntries_perm_none hperm hmk]
        | some es1 =>
          obtain ⟨es2, hmk2, hesperm⟩ := mkEntries_perm_some hperm hmk
          rw [hmk2]
          dsimp only
          have hnd1 : (es1.map Entry.name).Nodup := by
            have := hrootnd
            rw [hmk] at this
            exact this
          rw [sortEntries_eq_of_perm hesperm hnd1]

/-- Claim C8 (amended): two runs over the same filesystem snapshot give
byte-identical output regardless of enumeration order, provided root
sibling names are distinct and no two PNG paths beneath the same
immediate subdirectory share a base name. Without the latter proviso the
claim fails, because sorting by name is stable and leaves equal-named
entries in enumeration order. -/
theorem c8_deterministic (d o n₁ n₂ : String) (c₁ c₂ : List FSNode)
    (h : RelL c₁ c₂)
    (hnd : namesDistinct (c₁.map nodeName) = true)
    (hb : bucketsDistinct c₁ = true) :
    mainModel d o (some (.dir n₁ c₁)) = mainModel d o (some (.dir n₂ c₂)) := by
  have hp := processDirectory_congr c₁ c₂ h hnd hb
  simp only [mainModel, hp]

/-- Counterexample for C8 as stated: the same snapshot (even with
distinct sibling names inside every directory) enumerated in two orders
gives different JSON output, because sub/a/x.png and sub/b/x.png land in
the same bucket with the same name and the stable sort keeps their
enumeration order. -/
theorem c8_counterexample :
    RelL exDupA exDupB ∧
    dupFreeList exDupA = true ∧ dupFreeList exDupB = true ∧
    mainModel "pics" "out.json" (some (.dir "pics" exDupA)) ≠
      mainModel "pics" "out.json" (some (.dir "pics" exDupB)) := by
  refine ⟨⟨exDupB, ⟨⟨rfl, [FSNode.dir "a" [FSNode.file "x.png" (some [0])],
      FSNode.dir "b" [FSNode.file "x.png" (some [1])]],
      ssList_refl _, List.Perm.swap _ _ _⟩, trivial⟩, List.Perm.refl _⟩,
    by decide, by decide, by decide⟩

/-- Witness for C8 at a snapshot with distinct names in every bucket,
enumerated in two different orders. -/
theorem c8_witness :
    RelL exPermA exPermB ∧
    namesDistinct (exPermA.map nodeName) = true ∧
    bucketsDistinct exPermA = true ∧
    mainModel "pics" "out.json" (some (.dir "pics" exPermA)) =
      mainModel "pics" "out.json" (some (.dir "pics" exPermB)) := by
  have hrel : RelL exPermA exPermB :=
    ⟨exPermB, ⟨⟨rfl, [FSNode.file "b.png" (some [1]), FSNode.file "a.png" (some [2])],
      ssList_refl _, List.Perm.swap _ _ _⟩, trivial⟩, List.Perm.refl _⟩
  exact ⟨hrel, by decide, by decide,
    c8_deterministic "pics" "out.json" "pics" "pics" exPermA exPermB hrel
      (by decide) (by decide)⟩
